import Mathlib

/-!
Verification of the 1-D finite element solver
(`src/finite-elements/1d_finite_element_solver.py`).

The Python program is embedded shallowly over the rationals: numpy arrays of
floats become lists/functions over `ℚ`, the imperative assembly loop becomes a
fold with explicit state passing, and `np.linalg.solve` (which raises
`LinAlgError` exactly when the system is singular, and otherwise returns the
unique solution of the square system) is modelled in exact arithmetic by
Cramer's rule wrapped in `Option`.
-/

namespace FEM1D

/-- `f_function(x) = x * x`, the source-term function used by the local force
vector (hard-coded in the source). -/
def f_function (x : ℚ) : ℚ := x * x

/-- `local_stiffness(local_nodes)`: the source fills a 2×2 array with
`k[a][b] = ((-1) ** (a + b)) / (local_nodes[1] - local_nodes[0])`.
The pair `(local_nodes.1, local_nodes.2)` is `(local_nodes[0], local_nodes[1])`. -/
def local_stiffness (local_nodes : ℚ × ℚ) (a b : Fin 2) : ℚ :=
  ((-1 : ℚ) ^ ((a : ℕ) + (b : ℕ))) / (local_nodes.2 - local_nodes.1)

/-- `local_force(local_nodes)`: the source computes
`((nodes[1]-nodes[0])/6) * [2*f(nodes[0]) + f(nodes[1]), f(nodes[0]) + 2*f(nodes[1])]`. -/
def local_force (local_nodes : ℚ × ℚ) (a : Fin 2) : ℚ :=
  ((local_nodes.2 - local_nodes.1) / 6) *
    (if a = 0 then 2 * f_function local_nodes.1 + f_function local_nodes.2
     else f_function local_nodes.1 + 2 * f_function local_nodes.2)

/-- `np.linspace(start, stop, num)` (endpoint=True): `num` points
`start + i * (stop - start) / (num - 1)`.  For `num = 1` numpy returns
`[start]`, matched here because division by zero yields `0` in `ℚ`. -/
def linspace (start stop : ℚ) (num : ℕ) : List ℚ :=
  (List.range num).map fun i : ℕ => start + (i : ℚ) * (stop - start) / ((num : ℚ) - 1)

/-- The location matrix built by `finite_element`: `LM[0, e] = e`,
`LM[1, e] = e + 1`, and then the overwrite `LM[1, -1] = -1` puts the sentinel
`-1` in the last column (column `N_Elements - 1`). -/
def LM (N_Elements : ℕ) (a : Fin 2) (e : ℕ) : ℤ :=
  if a = 0 then (e : ℤ)
  else if e = N_Elements - 1 then -1 else (e : ℤ) + 1

/-- One statement `K_global[A, B] += v`, guarded (as in the source) by
`(A >= 0) and (B >= 0)`.  The global matrix is carried as a total function on
natural indices; all updates made by the program land inside `0..N-1`. -/
def addK (K : ℕ → ℕ → ℚ) (A B : ℤ) (v : ℚ) : ℕ → ℕ → ℚ :=
  if 0 ≤ A ∧ 0 ≤ B then
    fun p q => if p = A.toNat ∧ q = B.toNat then K p q + v else K p q
  else K

/-- One statement `F_global[A] += v`, guarded by `(A >= 0)`. -/
def addF (F : ℕ → ℚ) (A : ℤ) (v : ℚ) : ℕ → ℚ :=
  if 0 ≤ A then fun p => if p = A.toNat then F p + v else F p else F

/-- The body of the assembly loop for one element `e`: the two nested loops
over the local indices `a, b ∈ {0, 1}` unrolled, updating `K_global` at
`(LM[a,e], LM[b,e])` with `kab[a][b]` and `F_global` at `LM[a,e]` with
`fab[a]`, where `kab`/`fab` are built from the node slice `x[e:e+2]`. -/
def elementStep (x : ℕ → ℚ) (N_Elements e : ℕ)
    (KF : (ℕ → ℕ → ℚ) × (ℕ → ℚ)) : (ℕ → ℕ → ℚ) × (ℕ → ℚ) :=
  (addK (addK (addK (addK KF.1
      (LM N_Elements 0 e) (LM N_Elements 0 e) (local_stiffness (x e, x (e + 1)) 0 0))
      (LM N_Elements 0 e) (LM N_Elements 1 e) (local_stiffness (x e, x (e + 1)) 0 1))
      (LM N_Elements 1 e) (LM N_Elements 0 e) (local_stiffness (x e, x (e + 1)) 1 0))
      (LM N_Elements 1 e) (LM N_Elements 1 e) (local_stiffness (x e, x (e + 1)) 1 1),
   addF (addF KF.2
      (LM N_Elements 0 e) (local_force (x e, x (e + 1)) 0))
      (LM N_Elements 1 e) (local_force (x e, x (e + 1)) 1))

/-- The assembly loop `for element in range(N_Elements)` starting from the
zero-initialised `K_global`/`F_global`. -/
def assemble (x : ℕ → ℚ) (N_Elements : ℕ) : (ℕ → ℕ → ℚ) × (ℕ → ℚ) :=
  (List.range N_Elements).foldl (fun KF e => elementStep x N_Elements e KF)
    (fun _ _ => 0, fun _ => 0)

/-- The node coordinates `x` of `finite_element`, as a total function on the
index (`x = np.linspace(interval[0], interval[1], N_Elements + 1)`). -/
def meshFun (interval : ℚ × ℚ) (N_Elements : ℕ) : ℕ → ℚ :=
  fun i => (linspace interval.1 interval.2 (N_Elements + 1)).getD i 0

/-- The assembled `N×N` global stiffness matrix. -/
def K_global (x : ℕ → ℚ) (N_Elements : ℕ) :
    Matrix (Fin N_Elements) (Fin N_Elements) ℚ :=
  Matrix.of fun i j => (assemble x N_Elements).1 (i : ℕ) (j : ℕ)

/-- The assembled length-`N` global force vector. -/
def F_global (x : ℕ → ℚ) (N_Elements : ℕ) : Fin N_Elements → ℚ :=
  fun i => (assemble x N_Elements).2 (i : ℕ)

/-- Model of `np.linalg.solve` in exact arithmetic: it raises `LinAlgError`
(`none`) exactly when the square matrix is singular, and otherwise returns the
unique solution of `K * T = F`, written via Cramer's rule. -/
def npSolve {n : ℕ} (K : Matrix (Fin n) (Fin n) ℚ) (F : Fin n → ℚ) :
    Option (Fin n → ℚ) :=
  if K.det = 0 then none else some fun i => (K.updateColumn i F).det / K.det

/-- `finite_element(interval, N_Elements)`.  For `N_Elements = 0` the source
raises `IndexError` on the overwrite `LM[1, -1] = -1` (the location matrix has
shape `(2, 0)`), modelled as `none`; a raised `LinAlgError` from
`np.linalg.solve` is also `none`.  Otherwise the result is the coordinate list
and the solution of the linear system with the boundary value `0` appended
(`np.hstack((T_A, [0]))`). -/
def finite_element (interval : ℚ × ℚ) (N_Elements : ℕ) :
    Option (List ℚ × List ℚ) :=
  if N_Elements = 0 then none
  else
    (npSolve (K_global (meshFun interval N_Elements) N_Elements)
        (F_global (meshFun interval N_Elements) N_Elements)).map
      fun T_A => (linspace interval.1 interval.2 (N_Elements + 1),
        List.ofFn T_A ++ [0])

/-- Number of occurrences of global node `g` among the `2 × N_Elements`
entries of the location matrix. -/
def LM_count (N_Elements : ℕ) (g : ℤ) : ℕ :=
  ((Finset.range N_Elements).filter fun e => LM N_Elements 0 e = g).card +
    ((Finset.range N_Elements).filter fun e => LM N_Elements 1 e = g).card

/-- Number of elements whose geometry touches global node `g`
(element `e` touches nodes `e` and `e + 1`). -/
def touch_count (N_Elements : ℕ) (g : ℤ) : ℕ :=
  ((Finset.range N_Elements).filter fun e : ℕ => (e : ℤ) = g ∨ (e : ℤ) + 1 = g).card

/-- The contribution element `e` adds to entry `(p, q)` of `K_global` during
its pass of the assembly loop (a proof-side bookkeeping function). -/
def contribK (x : ℕ → ℚ) (N_Elements e p q : ℕ) : ℚ :=
  (if p = e ∧ q = e then 1 / (x (e + 1) - x e) else 0) +
    (if e ≠ N_Elements - 1 ∧ p = e ∧ q = e + 1 then -(1 / (x (e + 1) - x e)) else 0) +
    (if e ≠ N_Elements - 1 ∧ p = e + 1 ∧ q = e then -(1 / (x (e + 1) - x e)) else 0) +
    (if e ≠ N_Elements - 1 ∧ p = e + 1 ∧ q = e + 1 then 1 / (x (e + 1) - x e) else 0)

/-- `contribK` with the element length replaced by the constant mesh spacing
`h` (a proof-side bookkeeping function). -/
def contribC (h : ℚ) (N_Elements e p q : ℕ) : ℚ :=
  (if p = e ∧ q = e then 1 / h else 0) +
    (if e ≠ N_Elements - 1 ∧ p = e ∧ q = e + 1 then -(1 / h) else 0) +
    (if e ≠ N_Elements - 1 ∧ p = e + 1 ∧ q = e then -(1 / h) else 0) +
    (if e ≠ N_Elements - 1 ∧ p = e + 1 ∧ q = e + 1 then 1 / h else 0)

/-- The contribution element `e` adds to entry `p` of `F_global` during its
pass of the assembly loop (a proof-side bookkeeping function). -/
def contribF (x : ℕ → ℚ) (N_Elements e p : ℕ) : ℚ :=
  (if p = e then local_force (x e, x (e + 1)) 0 else 0) +
    (if e ≠ N_Elements - 1 ∧ p = e + 1 then local_force (x e, x (e + 1)) 1 else 0)

/-- Closed form of the assembled global stiffness entries on a uniform mesh
of spacing `h` (a proof-side bookkeeping function). -/
def Kc (h : ℚ) (p q : ℕ) : ℚ :=
  if p = q then (if p = 0 then 1 / h else 2 / h)
  else if q = p + 1 ∨ p = q + 1 then -(1 / h) else 0

/-- Explicit inverse (up to the factor `h`) of the assembled stiffness matrix,
used to show the system is nonsingular (a proof-side bookkeeping function). -/
def Binv (h : ℚ) (N_Elements : ℕ) : Matrix (Fin N_Elements) (Fin N_Elements) ℚ :=
  Matrix.of fun i j => h * ((N_Elements : ℚ) - (max (i : ℕ) (j : ℕ) : ℕ))

lemma length_linspace (a b : ℚ) (num : ℕ) : (linspace a b num).length = num := by
  rw [linspace, List.length_map, List.length_range]

lemma linspace_getD (a b : ℚ) (num i : ℕ) (h : i < num) :
    (linspace a b num).getD i 0 = a + (i : ℚ) * (b - a) / ((num : ℚ) - 1) := by
  rw [linspace, List.getD_eq_getElem?_getD, List.getElem?_map, List.getElem?_range h]
  rfl

lemma meshFun_eq (a b : ℚ) (N i : ℕ) (hi : i ≤ N) :
    meshFun (a, b) N i = a + (i : ℚ) * (b - a) / (N : ℚ) := by
  have h1 : ((N + 1 : ℕ) : ℚ) - 1 = (N : ℚ) := by push_cast; ring
  rw [meshFun, linspace_getD a b (N + 1) i (by omega), h1]

lemma meshFun_spacing (a b : ℚ) (N : ℕ) (e : ℕ) (he : e < N) :
    meshFun (a, b) N (e + 1) - meshFun (a, b) N e = (b - a) / (N : ℚ) := by
  rw [meshFun_eq a b N (e + 1) (by omega), meshFun_eq a b N e (by omega)]
  push_cast
  ring

/-- C2: for every interval `(a, b)` with `a < b` and every `N ≥ 1`, the mesh
`np.linspace(a, b, N + 1)` has exactly `N + 1` coordinates with
`x_i = a + i * (b - a) / N`, first coordinate `a`, last coordinate `b`, and
the coordinates are strictly increasing. -/
theorem C2_mesh (a b : ℚ) (N : ℕ) (hab : a < b) (hN : 1 ≤ N) :
    (linspace a b (N + 1)).length = N + 1 ∧
    (∀ i : ℕ, i ≤ N → (linspace a b (N + 1)).getD i 0 = a + (i : ℚ) * (b - a) / (N : ℚ)) ∧
    (linspace a b (N + 1)).getD 0 0 = a ∧
    (linspace a b (N + 1)).getD N 0 = b ∧
    (∀ i j : ℕ, i < j → j ≤ N →
      (linspace a b (N + 1)).getD i 0 < (linspace a b (N + 1)).getD j 0) := by
  have hNQ : (N : ℚ) ≠ 0 := Nat.cast_ne_zero.mpr (by omega)
  have hform : ∀ i : ℕ, i ≤ N →
      (linspace a b (N + 1)).getD i 0 = a + (i : ℚ) * (b - a) / (N : ℚ) := by
    intro i hi
    have h1 : ((N + 1 : ℕ) : ℚ) - 1 = (N : ℚ) := by push_cast; ring
    rw [linspace_getD a b (N + 1) i (by omega), h1]
  refine ⟨length_linspace a b (N + 1), hform, ?_, ?_, ?_⟩
  · rw [hform 0 (by omega)]; simp
  · rw [hform N (by omega)]; field_simp
  · intro i j hij hj
    rw [hform i (by omega), hform j (by omega)]
    have hs : (0 : ℚ) < (b - a) / (N : ℚ) := by
      apply div_pos (by linarith)
      exact_mod_cast Nat.pos_of_ne_zero (by omega)
    have hij' : (i : ℚ) < (j : ℚ) := by exact_mod_cast hij
    have key : (i : ℚ) * (b - a) / (N : ℚ) < (j : ℚ) * (b - a) / (N : ℚ) := by
      rw [mul_div_assoc, mul_div_assoc]
      exact mul_lt_mul_of_pos_right hij' hs
    linarith

/-- Witness for C2 at `a = 0`, `b = 1`, `N = 2`. -/
theorem C2_mesh_witness :
    (linspace 0 1 (2 + 1)).length = 2 + 1 ∧
    (∀ i : ℕ, i ≤ 2 → (linspace 0 1 (2 + 1)).getD i 0 = 0 + (i : ℚ) * (1 - 0) / (2 : ℚ)) ∧
    (linspace 0 1 (2 + 1)).getD 0 0 = 0 ∧
    (linspace 0 1 (2 + 1)).getD 2 0 = 1 ∧
    (∀ i j : ℕ, i < j → j ≤ 2 →
      (linspace 0 1 (2 + 1)).getD i 0 < (linspace 0 1 (2 + 1)).getD j 0) :=
  C2_mesh 0 1 2 (by norm_num) (by norm_num)

/-- C3: for every element with `x_left < x_right` and `h = x_right - x_left`,
`local_stiffness` returns the 2×2 matrix `k[p][q] = (-1)^(p+q) / h`; the
matrix is symmetric and each row sums to zero. -/
theorem C3_local_stiffness (xl xr : ℚ) (hlt : xl < xr) :
    (∀ p q : Fin 2, local_stiffness (xl, xr) p q =
      ((-1 : ℚ) ^ ((p : ℕ) + (q : ℕ))) / (xr - xl)) ∧
    (∀ p q : Fin 2, local_stiffness (xl, xr) p q = local_stiffness (xl, xr) q p) ∧
    (∀ p : Fin 2, local_stiffness (xl, xr) p 0 + local_stiffness (xl, xr) p 1 = 0) := by
  refine ⟨fun p q => rfl, fun p q => ?_, fun p => ?_⟩
  · simp only [local_stiffness, Nat.add_comm]
  · fin_cases p <;>
    · simp only [local_stiffness, Fin.val_zero, Fin.val_one]
      ring

/-- Witness for C3 at the element `(0, 1)`. -/
theorem C3_local_stiffness_witness :
    local_stiffness (0, 1) 0 1 = local_stiffness (0, 1) 1 0 ∧
    local_stiffness (0, 1) 0 0 + local_stiffness (0, 1) 0 1 = 0 :=
  ⟨(C3_local_stiffness 0 1 (by norm_num)).2.1 0 1,
   (C3_local_stiffness 0 1 (by norm_num)).2.2 0⟩

/-- C4: for every element with `x_left < x_right` and `h = x_right - x_left`,
`local_force` returns `f[0] = (h/6)*(2*s(x_left) + s(x_right))` and
`f[1] = (h/6)*(s(x_left) + 2*s(x_right))` where the source function is
`s(x) = x^2` (`f_function`). -/
theorem C4_local_force (xl xr : ℚ) (hlt : xl < xr) :
    local_force (xl, xr) 0 = ((xr - xl) / 6) * (2 * xl ^ 2 + xr ^ 2) ∧
    local_force (xl, xr) 1 = ((xr - xl) / 6) * (xl ^ 2 + 2 * xr ^ 2) ∧
    (∀ x : ℚ, f_function x = x ^ 2) := by
  refine ⟨?_, ?_, fun x => by rw [f_function]; ring⟩
  · rw [local_force, if_pos rfl]
    simp only [f_function]
    ring
  · rw [local_force, if_neg (by decide : ¬ (1 : Fin 2) = 0)]
    simp only [f_function]
    ring

/-- Witness for C4 at the element `(0, 1)`. -/
theorem C4_local_force_witness :
    local_force (0, 1) 0 = ((1 - 0) / 6) * (2 * 0 ^ 2 + 1 ^ 2) ∧
    local_force (0, 1) 1 = ((1 - 0) / 6) * (0 ^ 2 + 2 * 1 ^ 2) :=
  ⟨(C4_local_force 0 1 (by norm_num)).1, (C4_local_force 0 1 (by norm_num)).2.1⟩

/-- C8 counterexample: at the degenerate element `x_left = 1 > x_right = 0`
the element computations do not fail at all: they return the finite matrix
`[[-1, 1], [1, -1]]` and the finite load vector `[-1/3, -1/6]` (there is no
`DegenerateElementError` anywhere in the code). -/
theorem C8_counterexample :
    local_stiffness (1, 0) 0 0 = -1 ∧ local_stiffness (1, 0) 0 1 = 1 ∧
    local_stiffness (1, 0) 1 0 = 1 ∧ local_stiffness (1, 0) 1 1 = -1 ∧
    local_force (1, 0) 0 = -(1 / 3) ∧ local_force (1, 0) 1 = -(1 / 6) := by
  refine ⟨?_, ?_, ?_, ?_, ?_, ?_⟩
  · simp only [local_stiffness, Fin.val_zero]; norm_num
  · simp only [local_stiffness, Fin.val_zero, Fin.val_one]; norm_num
  · simp only [local_stiffness, Fin.val_zero, Fin.val_one]; norm_num
  · simp only [local_stiffness, Fin.val_one]; norm_num
  · rw [local_force, if_pos rfl]; simp only [f_function]; norm_num
  · rw [local_force, if_neg (by decide : ¬ (1 : Fin 2) = 0)]
    simp only [f_function]; norm_num

/-- C8 amended: for every element with `x_right < x_left` (negative length)
the element computations return finite rational values rather than failing:
the stiffness entries follow the same formula `(-1)^(p+q) / h` with `h < 0`
(so the diagonal entries are negative), and the load vector likewise follows
its closed form with `h < 0`. -/
theorem C8_amended (xl xr : ℚ) (hlt : xr < xl) :
    (∀ p q : Fin 2, local_stiffness (xl, xr) p q =
      ((-1 : ℚ) ^ ((p : ℕ) + (q : ℕ))) / (xr - xl)) ∧
    local_stiffness (xl, xr) 0 0 < 0 ∧
    local_force (xl, xr) 0 = ((xr - xl) / 6) * (2 * xl ^ 2 + xr ^ 2) ∧
    local_force (xl, xr) 1 = ((xr - xl) / 6) * (xl ^ 2 + 2 * xr ^ 2) := by
  refine ⟨fun p q => rfl, ?_, ?_, ?_⟩
  · have h1 : xr - xl < 0 := by linarith
    have h2 : local_stiffness (xl, xr) 0 0 = 1 / (xr - xl) := by
      simp only [local_stiffness, Fin.val_zero, Nat.add_zero, pow_zero]
    rw [h2]
    exact one_div_neg.mpr h1
  · rw [local_force, if_pos rfl]; simp only [f_function]; ring
  · rw [local_force, if_neg (by decide : ¬ (1 : Fin 2) = 0)]
    simp only [f_function]; ring

/-- Witness for the amended C8 at the element `(1, 0)`. -/
theorem C8_amended_witness : local_stiffness (1, 0) 0 0 < 0 :=
  (C8_amended 1 0 (by norm_num)).2.1

lemma LM_zero (N e : ℕ) : LM N 0 e = (e : ℤ) := rfl

lemma LM_one (N e : ℕ) : LM N 1 e = if e = N - 1 then -1 else (e : ℤ) + 1 := rfl

/-- C5: the location map sends element `e`'s left local node to global node
`e` and its right local node to `e + 1`, except the right local node of the
last element, which carries the sentinel `-1`; consequently each global node
`g < N` occurs in the map exactly as often as elements touch it, namely once
for `g = 0` and twice otherwise. -/
theorem C5_location_map (N : ℕ) (hN : 1 ≤ N) :
    (∀ e, e < N → LM N 0 e = (e : ℤ)) ∧
    (∀ e, e < N - 1 → LM N 1 e = (e : ℤ) + 1) ∧
    LM N 1 (N - 1) = -1 ∧
    (∀ g : ℕ, g < N →
      LM_count N (g : ℤ) = touch_count N (g : ℤ) ∧
      LM_count N (g : ℤ) = if g = 0 then 1 else 2) := by
  refine ⟨fun e _ => LM_zero N e, fun e he => ?_, ?_, fun g hg => ?_⟩
  · rw [LM_one, if_neg (by omega : ¬ e = N - 1)]
  · rw [LM_one, if_pos rfl]
  · have h0 : ((Finset.range N).filter fun e => LM N 0 e = (g : ℤ)) = {g} := by
      rw [Finset.filter_congr (q := fun e : ℕ => e = g) ?_, Finset.filter_eq',
        if_pos (Finset.mem_range.mpr hg)]
      intro e he
      show LM N 0 e = (g : ℤ) ↔ e = g
      rw [LM_zero]
      omega
    have hcount : LM_count N (g : ℤ) = if g = 0 then 1 else 2 := by
      by_cases hg0 : g = 0
      · subst hg0
        have h1 : ((Finset.range N).filter fun e => LM N 1 e = ((0 : ℕ) : ℤ)) = ∅ := by
          rw [Finset.filter_congr (q := fun e : ℕ => False) ?_, Finset.filter_False]
          intro e he
          show LM N 1 e = ((0 : ℕ) : ℤ) ↔ False
          rw [iff_false]
          intro hc
          rw [LM_one] at hc
          split_ifs at hc <;> omega
        rw [LM_count, h0, h1]
        simp
      · have h1 : ((Finset.range N).filter fun e => LM N 1 e = (g : ℤ)) = {g - 1} := by
          rw [Finset.filter_congr (q := fun e : ℕ => e = g - 1) ?_, Finset.filter_eq',
            if_pos (Finset.mem_range.mpr (by omega : g - 1 < N))]
          intro e he
          rw [Finset.mem_range] at he
          show LM N 1 e = (g : ℤ) ↔ e = g - 1
          rw [LM_one]
          constructor
          · intro hc
            split_ifs at hc <;> omega
          · intro hc
            rw [if_neg (by omega : ¬ e = N - 1)]
            omega
        rw [LM_count, h0, h1, if_neg hg0]
        simp
    have htouch : touch_count N (g : ℤ) = if g = 0 then 1 else 2 := by
      by_cases hg0 : g = 0
      · subst hg0
        have h2 : ((Finset.range N).filter fun e : ℕ =>
            (e : ℤ) = ((0 : ℕ) : ℤ) ∨ (e : ℤ) + 1 = ((0 : ℕ) : ℤ)) = {0} := by
          rw [Finset.filter_congr (q := fun e : ℕ => e = 0) ?_, Finset.filter_eq',
            if_pos (Finset.mem_range.mpr (by omega : 0 < N))]
          intro e he
          show (e : ℤ) = ((0 : ℕ) : ℤ) ∨ (e : ℤ) + 1 = ((0 : ℕ) : ℤ) ↔ e = 0
          omega
        rw [touch_count, h2]
        simp
      · have h2 : ((Finset.range N).filter fun e : ℕ =>
            (e : ℤ) = (g : ℤ) ∨ (e : ℤ) + 1 = (g : ℤ)) = {g} ∪ {g - 1} := by
          rw [Finset.filter_congr (q := fun e : ℕ => e = g ∨ e = g - 1) ?_, Finset.filter_or,
            Finset.filter_eq', Finset.filter_eq',
            if_pos (Finset.mem_range.mpr hg),
            if_pos (Finset.mem_range.mpr (by omega : g - 1 < N))]
          intro e he
          show (e : ℤ) = (g : ℤ) ∨ (e : ℤ) + 1 = (g : ℤ) ↔ e = g ∨ e = g - 1
          omega
        rw [touch_count, h2, ← Finset.insert_eq,
          Finset.card_insert_of_not_mem (by simp only [Finset.mem_singleton]; omega),
          Finset.card_singleton, if_neg hg0]
    exact ⟨hcount.trans htouch.symm, hcount⟩

/-- Witness for C5 at `N = 2`, global node `g = 1`. -/
theorem C5_location_map_witness :
    LM 2 0 0 = 0 ∧ LM 2 1 0 = 1 ∧ LM 2 1 1 = -1 ∧
    LM_count 2 1 = touch_count 2 1 ∧ LM_count 2 1 = 2 := by
  refine ⟨(C5_location_map 2 (by norm_num)).1 0 (by norm_num),
    (C5_location_map 2 (by norm_num)).2.1 0 (by norm_num),
    (C5_location_map 2 (by norm_num)).2.2.1,
    ((C5_location_map 2 (by norm_num)).2.2.2 1 (by norm_num)).1,
    ((C5_location_map 2 (by norm_num)).2.2.2 1 (by norm_num)).2⟩

lemma ls00 (nodes : ℚ × ℚ) : local_stiffness nodes 0 0 = 1 / (nodes.2 - nodes.1) := by
  simp [local_stiffness]

lemma ls01 (nodes : ℚ × ℚ) : local_stiffness nodes 0 1 = -(1 / (nodes.2 - nodes.1)) := by
  simp [local_stiffness]
  ring

lemma ls10 (nodes : ℚ × ℚ) : local_stiffness nodes 1 0 = -(1 / (nodes.2 - nodes.1)) := by
  simp [local_stiffness]
  ring

lemma ls11 (nodes : ℚ × ℚ) : local_stiffness nodes 1 1 = 1 / (nodes.2 - nodes.1) := by
  simp [local_stiffness]

lemma elementStep_K (x : ℕ → ℚ) (N e : ℕ) (KF : (ℕ → ℕ → ℚ) × (ℕ → ℚ)) (p q : ℕ) :
    (elementStep x N e KF).1 p q = KF.1 p q + contribK x N e p q := by
  have g1 : (0 : ℤ) ≤ (e : ℤ) := Int.natCast_nonneg e
  have g2 : (0 : ℤ) ≤ (e : ℤ) + 1 := by omega
  have g4 : ((e : ℤ)).toNat = e := by omega
  have g3 : ((e : ℤ) + 1).toNat = e + 1 := by omega
  by_cases hE : e = N - 1
  · have hc : contribK x N e p q = if p = e ∧ q = e then 1 / (x (e + 1) - x e) else 0 := by
      simp [contribK, hE]
    rw [hc]
    simp only [elementStep, LM_zero, LM_one, if_pos hE, ls00, ls01, ls10, ls11, addK]
    norm_num [g1, g4]
    split_ifs <;> ring
  · have hc : contribK x N e p q =
        (if p = e ∧ q = e then 1 / (x (e + 1) - x e) else 0) +
        (if p = e ∧ q = e + 1 then -(1 / (x (e + 1) - x e)) else 0) +
        (if p = e + 1 ∧ q = e then -(1 / (x (e + 1) - x e)) else 0) +
        (if p = e + 1 ∧ q = e + 1 then 1 / (x (e + 1) - x e) else 0) := by
      simp [contribK, hE]
    rw [hc]
    simp only [elementStep, LM_zero, LM_one, if_neg hE, ls00, ls01, ls10, ls11, addK]
    norm_num [g1, g2, g3, g4]
    split_ifs <;> ring

lemma foldl_K (x : ℕ → ℚ) (N : ℕ) (l : List ℕ) (KF : (ℕ → ℕ → ℚ) × (ℕ → ℚ)) (p q : ℕ) :
    ((l.foldl (fun KF e => elementStep x N e KF) KF).1 p q)
      = KF.1 p q + (l.map fun e => contribK x N e p q).sum := by
  induction l generalizing KF with
  | nil => simp
  | cons e t ih =>
    rw [List.foldl_cons, ih, List.map_cons, List.sum_cons, elementStep_K]
    ring

lemma list_range_map_sum (f : ℕ → ℚ) (N : ℕ) :
    ((List.range N).map f).sum = ∑ e ∈ Finset.range N, f e := by
  induction N with
  | zero => simp
  | succ n ih =>
    rw [List.range_succ, List.map_append, List.sum_append, Finset.sum_range_succ, ih]
    simp

lemma assemble_K (x : ℕ → ℚ) (N p q : ℕ) :
    (assemble x N).1 p q = ∑ e ∈ Finset.range N, contribK x N e p q := by
  rw [assemble, foldl_K, list_range_map_sum]
  simp

lemma sum_pin (N c : ℕ) (hc : c < N) (v : ℚ) :
    ∑ e ∈ Finset.range N, (if e = c then v else 0) = v := by
  rw [Finset.sum_ite_eq' (Finset.range N) c fun _ => v, if_pos (Finset.mem_range.mpr hc)]

lemma sum_contribK (N p q : ℕ) (h : ℚ) (x : ℕ → ℚ)
    (hx : ∀ e, e < N → x (e + 1) - x e = h) (hp : p < N) (hq : q < N) :
    ∑ e ∈ Finset.range N, contribK x N e p q = Kc h p q := by
  have step1 : ∑ e ∈ Finset.range N, contribK x N e p q
      = ∑ e ∈ Finset.range N, contribC h N e p q :=
    Finset.sum_congr rfl fun e he => by
      rw [Finset.mem_range] at he
      simp only [contribK, contribC, hx e he]
  rw [step1]
  by_cases hpq : p = q
  · by_cases hp0 : p = 0
    · have hpt : ∀ e ∈ Finset.range N, contribC h N e p q = if e = p then 1 / h else 0 :=
        fun e he => by
          rw [Finset.mem_range] at he
          simp only [contribC]
          split_ifs <;> (try omega) <;> ring
      rw [Finset.sum_congr rfl hpt, sum_pin N p hp, Kc, if_pos hpq, if_pos hp0]
    · have hpt : ∀ e ∈ Finset.range N, contribC h N e p q =
          (if e = p then 1 / h else 0) + (if e = p - 1 then 1 / h else 0) :=
        fun e he => by
          rw [Finset.mem_range] at he
          simp only [contribC]
          split_ifs <;> (try omega) <;> ring
      rw [Finset.sum_congr rfl hpt, Finset.sum_add_distrib, sum_pin N p hp,
        sum_pin N (p - 1) (by omega), Kc, if_pos hpq, if_neg hp0]
      ring
  · by_cases hq2 : q = p + 1
    · have hpt : ∀ e ∈ Finset.range N, contribC h N e p q = if e = p then -(1 / h) else 0 :=
        fun e he => by
          rw [Finset.mem_range] at he
          simp only [contribC]
          split_ifs <;> (try omega) <;> ring
      rw [Finset.sum_congr rfl hpt, sum_pin N p hp, Kc, if_neg hpq, if_pos (Or.inl hq2)]
    · by_cases hp2 : p = q + 1
      · have hpt : ∀ e ∈ Finset.range N, contribC h N e p q = if e = q then -(1 / h) else 0 :=
          fun e he => by
            rw [Finset.mem_range] at he
            simp only [contribC]
            split_ifs <;> (try omega) <;> ring
        rw [Finset.sum_congr rfl hpt, sum_pin N q hq, Kc, if_neg hpq, if_pos (Or.inr hp2)]
      · have hpt : ∀ e ∈ Finset.range N, contribC h N e p q = 0 :=
          fun e he => by
            rw [Finset.mem_range] at he
            simp only [contribC]
            split_ifs <;> (try omega) <;> ring
        rw [Finset.sum_congr rfl hpt, Finset.sum_const, smul_zero, Kc, if_neg hpq,
          if_neg (by omega : ¬ (q = p + 1 ∨ p = q + 1))]

lemma sum_pinD (N c : ℕ) (f : ℕ → ℚ) :
    ∑ m ∈ Finset.range N, (if m = c then f m else 0) = if c < N then f c else 0 := by
  rw [Finset.sum_ite_eq' (Finset.range N) c f]
  simp [Finset.mem_range]

lemma Kc_split (h : ℚ) (p m : ℕ) :
    Kc h p m = (if m = p then (if p = 0 then 1 / h else 2 / h) else 0) +
      (if m = p + 1 then -(1 / h) else 0) +
      (if m = p - 1 ∧ 1 ≤ p then -(1 / h) else 0) := by
  rw [Kc]
  split_ifs <;> (try omega) <;> ring

lemma Kc_mul_Binv_sum (h : ℚ) (hh : h ≠ 0) (N i j : ℕ) (hi : i < N) (hj : j < N) :
    ∑ m ∈ Finset.range N, Kc h i m * (h * ((N : ℚ) - (max m j : ℕ)))
      = if i = j then 1 else 0 := by
  have hsplit : ∀ m ∈ Finset.range N, Kc h i m * (h * ((N : ℚ) - (max m j : ℕ))) =
      (if m = i then (if i = 0 then 1 / h else 2 / h) * (h * ((N : ℚ) - (max m j : ℕ))) else 0) +
      (if m = i + 1 then -(1 / h) * (h * ((N : ℚ) - (max m j : ℕ))) else 0) +
      (if m = i - 1 ∧ 1 ≤ i then -(1 / h) * (h * ((N : ℚ) - (max m j : ℕ))) else 0) :=
    fun m _ => by
      rw [Kc_split]
      simp only [add_mul, ite_mul, zero_mul]
  rw [Finset.sum_congr rfl hsplit, Finset.sum_add_distrib, Finset.sum_add_distrib,
    sum_pinD, sum_pinD, if_pos hi]
  by_cases hP : 1 ≤ i
  · have h3 : ∀ m ∈ Finset.range N, (if m = i - 1 ∧ 1 ≤ i
        then -(1 / h) * (h * ((N : ℚ) - (max m j : ℕ))) else 0)
        = if m = i - 1 then -(1 / h) * (h * ((N : ℚ) - (max m j : ℕ))) else 0 :=
      fun m _ => by simp [hP]
    rw [Finset.sum_congr rfl h3, sum_pinD, if_pos (by omega : i - 1 < N)]
    obtain ⟨q, rfl⟩ : ∃ q, i = q + 1 := ⟨i - 1, by omega⟩
    rw [(by omega : q + 1 - 1 = q), if_neg (by omega : ¬ q + 1 = 0)]
    rcases Nat.lt_trichotomy j (q + 1) with hj1 | hj1 | hj1
    · rw [max_eq_left (by omega : j ≤ q + 1), max_eq_left (by omega : j ≤ q + 1 + 1),
        max_eq_left (by omega : j ≤ q), if_neg (by omega : ¬ q + 1 = j)]
      by_cases hiN : q + 1 + 1 < N
      · rw [if_pos hiN]
        push_cast
        field_simp
        ring
      · rw [if_neg hiN]
        have hN2 : N = q + 1 + 1 := by omega
        rw [hN2]
        push_cast
        field_simp
        ring
    · rw [max_eq_left (by omega : j ≤ q + 1), max_eq_left (by omega : j ≤ q + 1 + 1),
        max_eq_right (by omega : q ≤ j), if_pos hj1.symm, hj1]
      by_cases hiN : q + 1 + 1 < N
      · rw [if_pos hiN]
        push_cast
        field_simp
        ring
      · rw [if_neg hiN]
        have hN2 : N = q + 1 + 1 := by omega
        rw [hN2]
        push_cast
        field_simp
        ring
    · rw [max_eq_right (by omega : q + 1 ≤ j), max_eq_right (by omega : q + 1 + 1 ≤ j),
        max_eq_right (by omega : q ≤ j), if_neg (by omega : ¬ q + 1 = j),
        if_pos (by omega : q + 1 + 1 < N)]
      push_cast
      field_simp
      ring
  · have hi0 : i = 0 := by omega
    have h3 : ∀ m ∈ Finset.range N, (if m = i - 1 ∧ 1 ≤ i
        then -(1 / h) * (h * ((N : ℚ) - (max m j : ℕ))) else 0) = 0 :=
      fun m _ => by simp [hP]
    rw [Finset.sum_congr rfl h3, Finset.sum_const, smul_zero, hi0, if_pos rfl]
    rcases Nat.eq_zero_or_pos j with hj0 | hj0
    · rw [hj0, if_pos rfl]
      rw [show max (0 : ℕ) 0 = 0 from rfl]
      by_cases hiN : 0 + 1 < N
      · rw [if_pos hiN, max_eq_left (by omega : (0:ℕ) ≤ 0 + 1)]
        push_cast
        field_simp
        ring
      · rw [if_neg hiN]
        have hN1 : N = 1 := by omega
        rw [hN1]
        push_cast
        field_simp
    · rw [if_neg (by omega : ¬ (0 : ℕ) = j), max_eq_right (by omega : (0:ℕ) ≤ j),
        if_pos (by omega : 0 + 1 < N), max_eq_right (by omega : 0 + 1 ≤ j)]
      push_cast
      field_simp
      ring

lemma K_global_apply (x : ℕ → ℚ) (N : ℕ) (i j : Fin N) :
    K_global x N i j = (assemble x N).1 (i : ℕ) (j : ℕ) := rfl

lemma K_global_entry (a b : ℚ) (N p q : ℕ) (hp : p < N) (hq : q < N) :
    (assemble (meshFun (a, b) N) N).1 p q = Kc ((b - a) / (N : ℚ)) p q := by
  rw [assemble_K]
  exact sum_contribK N p q _ _ (fun e he => meshFun_spacing a b N e he) hp hq

lemma K_mul_Binv (a b : ℚ) (N : ℕ) (hab : a < b) (hN : 1 ≤ N) :
    K_global (meshFun (a, b) N) N * Binv ((b - a) / (N : ℚ)) N = 1 := by
  have hh : (b - a) / (N : ℚ) ≠ 0 :=
    div_ne_zero (by linarith) (Nat.cast_ne_zero.mpr (by omega))
  ext i j
  rw [Matrix.mul_apply, Matrix.one_apply]
  have hrw : ∀ k : Fin N,
      K_global (meshFun (a, b) N) N i k * Binv ((b - a) / (N : ℚ)) N k j
        = Kc ((b - a) / (N : ℚ)) (i : ℕ) (k : ℕ) *
            (((b - a) / (N : ℚ)) * ((N : ℚ) - (max (k : ℕ) (j : ℕ) : ℕ))) := fun k => by
    rw [K_global_apply, K_global_entry a b N _ _ i.isLt k.isLt]
    rfl
  rw [Finset.sum_congr rfl fun k _ => hrw k,
    Fin.sum_univ_eq_sum_range (fun m => Kc ((b - a) / (N : ℚ)) (i : ℕ) m *
      (((b - a) / (N : ℚ)) * ((N : ℚ) - (max m (j : ℕ) : ℕ)))) N,
    Kc_mul_Binv_sum _ hh N _ _ i.isLt j.isLt]
  by_cases hij : i = j
  · rw [if_pos (congrArg Fin.val hij), if_pos hij]
  · rw [if_neg (fun hc => hij (Fin.val_injective hc)), if_neg hij]

lemma K_global_det_ne_zero (a b : ℚ) (N : ℕ) (hab : a < b) (hN : 1 ≤ N) :
    (K_global (meshFun (a, b) N) N).det ≠ 0 := by
  intro h0
  have hmul := congrArg Matrix.det (K_mul_Binv a b N hab hN)
  rw [Matrix.det_mul, Matrix.det_one, h0, zero_mul] at hmul
  exact zero_ne_one hmul

lemma npSolve_eq_some {n : ℕ} (K : Matrix (Fin n) (Fin n) ℚ) (F : Fin n → ℚ)
    (hdet : K.det ≠ 0) :
    npSolve K F = some fun i => (K.updateColumn i F).det / K.det := by
  rw [npSolve, if_neg hdet]

/-- C10: on the uniform mesh with `h = (b - a) / N`, the assembled global
stiffness matrix is tridiagonal with `K[0][0] = 1/h`, `K[i][i] = 2/h` for
`i ≥ 1`, `K[i][j] = -1/h` for `|i - j| = 1`, and `K[i][j] = 0` for
`|i - j| > 1`. -/
theorem C10_tridiagonal (a b : ℚ) (N : ℕ) (hab : a < b) (hN : 1 ≤ N) (i j : Fin N) :
    K_global (meshFun (a, b) N) N i j =
      (if (i : ℕ) = (j : ℕ) then
        (if (i : ℕ) = 0 then 1 / ((b - a) / (N : ℚ)) else 2 / ((b - a) / (N : ℚ)))
       else if (j : ℕ) = (i : ℕ) + 1 ∨ (i : ℕ) = (j : ℕ) + 1 then
        -(1 / ((b - a) / (N : ℚ)))
       else 0) := by
  rw [K_global_apply, K_global_entry a b N _ _ i.isLt j.isLt, Kc]

/-- Witness for C10 at `a = 0`, `b = 1`, `N = 2`: the entry `(0, 1)`. -/
theorem C10_tridiagonal_witness :
    K_global (meshFun (0, 1) 2) 2 0 1 =
      (if ((0 : Fin 2) : ℕ) = ((1 : Fin 2) : ℕ) then
        (if ((0 : Fin 2) : ℕ) = 0 then 1 / ((1 - 0) / (2 : ℚ)) else 2 / ((1 - 0) / (2 : ℚ)))
       else if ((1 : Fin 2) : ℕ) = ((0 : Fin 2) : ℕ) + 1 ∨
          ((0 : Fin 2) : ℕ) = ((1 : Fin 2) : ℕ) + 1 then
        -(1 / ((1 - 0) / (2 : ℚ)))
       else 0) :=
  C10_tridiagonal 0 1 2 (by norm_num) (by norm_num) 0 1

/-- C9: for every valid input the assembled global stiffness matrix is
symmetric. -/
theorem C9_symmetric (a b : ℚ) (N : ℕ) (hab : a < b) (hN : 1 ≤ N) (i j : Fin N) :
    K_global (meshFun (a, b) N) N i j = K_global (meshFun (a, b) N) N j i := by
  rw [K_global_apply, K_global_apply, K_global_entry a b N _ _ i.isLt j.isLt,
    K_global_entry a b N _ _ j.isLt i.isLt, Kc, Kc]
  split_ifs <;> (try omega) <;> ring

/-- Witness for C9 at `a = 0`, `b = 1`, `N = 2`, entries `(0, 1)` and `(1, 0)`. -/
theorem C9_symmetric_witness :
    K_global (meshFun (0, 1) 2) 2 0 1 = K_global (meshFun (0, 1) 2) 2 1 0 :=
  C9_symmetric 0 1 2 (by norm_num) (by norm_num) 0 1

/-- C1: for every valid input (`a < b`, `N ≥ 1`) the solver returns a result;
the coordinate list and the nodal value list both have length `N + 1`, and the
last nodal value (index `N`) is the enforced boundary value `0`. -/
theorem C1_solver_output (a b : ℚ) (N : ℕ) (hab : a < b) (hN : 1 ≤ N) :
    (finite_element (a, b) N).map
        (fun r => (r.1.length, r.2.length, r.2.getD N 0)) = some (N + 1, N + 1, 0) := by
  rw [finite_element, if_neg (by omega : ¬ N = 0),
    npSolve_eq_some _ _ (K_global_det_ne_zero a b N hab hN),
    Option.map_some', Option.map_some']
  simp only [length_linspace, List.length_append, List.length_ofFn, List.length_singleton]
  rw [List.getD_append_right _ _ _ _
      (by rw [List.length_ofFn] : (List.ofFn fun i =>
        ((K_global (meshFun (a, b) N) N).updateColumn i
          (F_global (meshFun (a, b) N) N)).det /
          (K_global (meshFun (a, b) N) N).det).length ≤ N),
    List.length_ofFn]
  simp

/-- Witness for C1 at `a = 0`, `b = 1`, `N = 2`. -/
theorem C1_solver_output_witness :
    (finite_element (0, 1) 2).map
        (fun r => (r.1.length, r.2.length, r.2.getD 2 0)) = some (2 + 1, 2 + 1, 0) :=
  C1_solver_output 0 1 2 (by norm_num) (by norm_num)

lemma elementStep_F (x : ℕ → ℚ) (N e : ℕ) (KF : (ℕ → ℕ → ℚ) × (ℕ → ℚ)) (p : ℕ) :
    (elementStep x N e KF).2 p = KF.2 p + contribF x N e p := by
  have g1 : (0 : ℤ) ≤ (e : ℤ) := Int.natCast_nonneg e
  have g4 : ((e : ℤ)).toNat = e := by omega
  have g3 : ((e : ℤ) + 1).toNat = e + 1 := by omega
  by_cases hE : e = N - 1
  · have hc : contribF x N e p = if p = e then local_force (x e, x (e + 1)) 0 else 0 := by
      simp [contribF, hE]
    rw [hc]
    simp only [elementStep, LM_zero, LM_one, if_pos hE, addF]
    norm_num [g1, g4]
    split_ifs <;> ring
  · have g2 : (0 : ℤ) ≤ (e : ℤ) + 1 := by omega
    have hc : contribF x N e p =
        (if p = e then local_force (x e, x (e + 1)) 0 else 0) +
          (if p = e + 1 then local_force (x e, x (e + 1)) 1 else 0) := by
      simp [contribF, hE]
    rw [hc]
    simp only [elementStep, LM_zero, LM_one, if_neg hE, addF]
    norm_num [g1, g2, g3, g4]
    split_ifs <;> (try omega) <;> ring

lemma foldl_F (x : ℕ → ℚ) (N : ℕ) (l : List ℕ) (KF : (ℕ → ℕ → ℚ) × (ℕ → ℚ)) (p : ℕ) :
    ((l.foldl (fun KF e => elementStep x N e KF) KF).2 p)
      = KF.2 p + (l.map fun e => contribF x N e p).sum := by
  induction l generalizing KF with
  | nil => simp
  | cons e t ih =>
    rw [List.foldl_cons, ih, List.map_cons, List.sum_cons, elementStep_F]
    ring

lemma assemble_F (x : ℕ → ℚ) (N p : ℕ) :
    (assemble x N).2 p = ∑ e ∈ Finset.range N, contribF x N e p := by
  rw [assemble, foldl_F, list_range_map_sum]
  simp

lemma npSolve_spec {n : ℕ} (K : Matrix (Fin n) (Fin n) ℚ) (F t : Fin n → ℚ)
    (hdet : K.det ≠ 0) (ht : K.mulVec t = F) : npSolve K F = some t := by
  have hu : IsUnit K.det := isUnit_iff_ne_zero.mpr hdet
  have hcr : Matrix.cramer K F = K.det • t := by
    have h1 : K.mulVec (Matrix.cramer K F) = K.mulVec (K.det • t) := by
      rw [Matrix.mulVec_cramer, Matrix.mulVec_smul, ht]
    have h2 : K⁻¹.mulVec (K.mulVec (Matrix.cramer K F))
        = K⁻¹.mulVec (K.mulVec (K.det • t)) := congrArg _ h1
    rw [Matrix.mulVec_mulVec, Matrix.mulVec_mulVec, Matrix.nonsing_inv_mul K hu,
      Matrix.one_mulVec, Matrix.one_mulVec] at h2
    exact h2
  rw [npSolve, if_neg hdet]
  refine congrArg some (funext fun i => ?_)
  have h3 : (K.updateColumn i F).det = Matrix.cramer K F i :=
    (Matrix.cramer_apply K F i).symm
  rw [h3, hcr, Pi.smul_apply, smul_eq_mul, mul_div_cancel_left₀ _ hdet]

lemma linspace_0_1_3 : linspace 0 1 (2 + 1) = [0, 1 / 2, 1] := by
  rw [linspace]
  norm_num [List.range_succ]

lemma linspace_1_0_2 : linspace 1 0 (1 + 1) = [1, 0] := by
  rw [linspace]
  norm_num [List.range_succ]

lemma mesh_0_1_2_vals :
    meshFun (0, 1) 2 0 = 0 ∧ meshFun (0, 1) 2 1 = 1 / 2 ∧ meshFun (0, 1) 2 2 = 1 := by
  refine ⟨?_, ?_, ?_⟩ <;>
  · rw [meshFun_eq 0 1 2 _ (by omega)]
    norm_num

lemma K_global_0_1_2 : K_global (meshFun (0, 1) 2) 2 = Matrix.of ![![2, -2], ![-2, 4]] := by
  ext i j
  rw [K_global_apply, K_global_entry 0 1 2 _ _ i.isLt j.isLt]
  fin_cases i <;> fin_cases j <;>
    norm_num [Kc, Matrix.cons_val_zero, Matrix.cons_val_one, Matrix.head_cons]

lemma F_global_0_1_2 : F_global (meshFun (0, 1) 2) 2 = ![1 / 48, 1 / 6] := by
  obtain ⟨hx0, hx1, hx2⟩ := mesh_0_1_2_vals
  funext i
  show (assemble (meshFun (0, 1) 2) 2).2 (i : ℕ) = _
  rw [assemble_F]
  fin_cases i <;>
  · rw [Finset.sum_range_succ, Finset.sum_range_succ, Finset.sum_range_zero]
    norm_num [contribF, local_force, f_function, hx0, hx1, hx2,
      Matrix.cons_val_zero, Matrix.cons_val_one, Matrix.head_cons]

lemma finite_element_0_1_2 :
    finite_element (0, 1) 2 = some ([0, 1 / 2, 1], [5 / 48, 3 / 32, 0]) := by
  have hdet : (Matrix.of ![![(2 : ℚ), -2], ![-2, 4]]).det ≠ 0 := by
    rw [Matrix.det_fin_two]
    norm_num [Matrix.cons_val_zero, Matrix.cons_val_one, Matrix.head_cons]
  have hmv : (Matrix.of ![![(2 : ℚ), -2], ![-2, 4]]).mulVec ![5 / 48, 3 / 32] =
      ![1 / 48, 1 / 6] := by
    funext i
    fin_cases i <;>
      norm_num [Matrix.mulVec, Matrix.dotProduct, Fin.sum_univ_two,
        Matrix.cons_val_zero, Matrix.cons_val_one, Matrix.head_cons]
  rw [finite_element, if_neg (by norm_num : ¬ (2 : ℕ) = 0), K_global_0_1_2, F_global_0_1_2,
    npSolve_spec _ _ ![5 / 48, 3 / 32] hdet hmv, Option.map_some', linspace_0_1_3]
  norm_num [List.ofFn_succ, Matrix.cons_val_zero, Matrix.cons_val_one, Matrix.head_cons]

/-- C6: the round trip at `interval = (0, 1)`, `N = 2`: the mesh is
`[0, 1/2, 1]` and the returned nodal values are `[5/48, 3/32, 0]`, which
satisfy `T[2] = 0` and `T[0] > T[1] > T[2] ≥ 0`. -/
theorem C6_roundtrip :
    finite_element (0, 1) 2 = some ([0, 1 / 2, 1], [5 / 48, 3 / 32, 0]) ∧
    (5 : ℚ) / 48 > 3 / 32 ∧ (3 : ℚ) / 32 > 0 ∧ (0 : ℚ) ≥ 0 := by
  refine ⟨finite_element_0_1_2, by norm_num, by norm_num, le_refl 0⟩

lemma finite_element_1_0_1 :
    finite_element (1, 0) 1 = some ([1, 0], [1 / 3, 0]) := by
  have hx0 : meshFun (1, 0) 1 0 = 1 := by
    rw [meshFun_eq 1 0 1 0 (by omega)]; norm_num
  have hx1 : meshFun (1, 0) 1 1 = 0 := by
    rw [meshFun_eq 1 0 1 1 (by omega)]; norm_num
  have hK : K_global (meshFun (1, 0) 1) 1 = Matrix.of ![![-1]] := by
    ext i j
    rw [K_global_apply, K_global_entry 1 0 1 _ _ i.isLt j.isLt]
    fin_cases i <;> fin_cases j <;> norm_num [Kc, Matrix.cons_val_zero]
  have hF : F_global (meshFun (1, 0) 1) 1 = ![-(1 / 3)] := by
    funext i
    show (assemble (meshFun (1, 0) 1) 1).2 (i : ℕ) = _
    rw [assemble_F]
    fin_cases i <;>
    · rw [Finset.sum_range_succ, Finset.sum_range_zero]
      norm_num [contribF, local_force, f_function, hx0, hx1, Matrix.cons_val_zero]
  have hdet : (Matrix.of ![![(-1 : ℚ)]]).det ≠ 0 := by
    rw [Matrix.det_fin_one]
    norm_num [Matrix.cons_val_zero]
  have hmv : (Matrix.of ![![(-1 : ℚ)]]).mulVec ![1 / 3] = ![-(1 / 3)] := by
    funext i
    fin_cases i <;>
      norm_num [Matrix.mulVec, Matrix.dotProduct, Fin.sum_univ_one, Matrix.cons_val_zero]
  rw [finite_element, if_neg (by norm_num : ¬ (1 : ℕ) = 0), hK, hF,
    npSolve_spec _ _ ![1 / 3] hdet hmv, Option.map_some', linspace_1_0_2]
  norm_num [List.ofFn_succ, Matrix.cons_val_zero]

/-- C7 counterexample: at the degenerate input `a = 1 ≥ b = 0` with `N = 1`,
mesh generation does not fail (it returns the decreasing mesh `[1, 0]`) and
the solver does not fail either: it returns `([1, 0], [1/3, 0])`.  No
`InvalidMeshError` is raised anywhere (the code defines no such error). -/
theorem C7_counterexample :
    linspace 1 0 (1 + 1) = [1, 0] ∧
    finite_element (1, 0) 1 = some ([1, 0], [1 / 3, 0]) :=
  ⟨linspace_1_0_2, finite_element_1_0_1⟩

/-- C7 amended: for `N = 0` the solver does fail, but with an unhandled
`IndexError` from the location-matrix overwrite (modelled as `none`), not an
`InvalidMeshError` (which the code does not define); for `a ≥ b` neither mesh
generation nor the solver fails in general — at `interval = (1, 0)`, `N = 1`
the solver returns the result `([1, 0], [1/3, 0])`. -/
theorem C7_amended :
    (∀ q1 q2 : ℚ, finite_element (q1, q2) 0 = none) ∧
    finite_element (1, 0) 1 = some ([1, 0], [1 / 3, 0]) :=
  ⟨fun q1 q2 => rfl, finite_element_1_0_1⟩

end FEM1D
